import Mathlib

/-!
# Shallow embedding of the imgmod pixel-buffer filter engine (src/image.rs)

The Rust source stores the raster as `bitmap_data : Vec<u8>` together with
`width, height : u32`.  We model bytes as `Nat` (the well-formedness claims add
`< 256` bounds where they matter), `usize` arithmetic as `Nat` reduced modulo
`2^32` exactly where the source can wrap (the crate is a wasm32/yew app, so
`usize` is 32 bits; the `pixel_index` computation `index + (x-1)*4 +
(y-1)*width*4` underflows for `x = 0`/`y = 0` and the source's guard
`pixel_index < 0` is dead on an unsigned integer), and `f32` values as exact
rationals `ℚ`.  Floating-point rounding is abstracted to exact rational
arithmetic; wherever a claim's truth depends on the actual `f32` behaviour the
relevant computation is exactly representable (sums of bytes up to 765, the
f32 values of the luma literals, `saturating_add`), or provably agrees with the
integer model used here (`(s as f32)/3.0 as u8` equals `s / 3` for all
`s ≤ 765`; `((n as i32) as f32).sqrt() as u8` equals `min 255 (Nat.sqrt n)`
for all `0 ≤ n < 2^24`, which covers the Sobel range `n ≤ 2*1020^2`).
Rust's narrowing `expr as u8` cast from `f32` saturates (clamps to `[0,255]`,
truncating toward zero, NaN to 0); it is modeled by `u8castQ`.
Rust `Vec` indexing panics out of bounds; reads are modeled by `readD`
(defaulting to 0) and writes by `List.set` (a no-op out of bounds), and the
bounds claims (C3) prove that under the documented length invariant every
index used by the loops is in range, so the defaults are never consulted.
Each `while` loop is modeled by a structurally recursive function with a fuel
argument that is always sufficient (`length + 1` exceeds the iteration count).
-/

namespace Imgmod

/-- Read a byte from the buffer; out-of-range reads default to 0 (the claims
prove they do not occur under the length invariant). -/
def readD (l : List Nat) (i : Nat) : Nat := l.getD i 0

/-- Rust's saturating narrowing cast `(q : f32) as u8`: truncate toward zero
and clamp into `[0, 255]`.  `Nat.floor` of a negative rational is 0, which
matches the clamp at 0 (truncation and flooring agree on nonnegative values,
and both land at 0 after clamping on negative ones). -/
def u8castQ (q : ℚ) : Nat := min 255 ⌊q⌋₊

/-- The word size of `usize` on the wasm32 target the crate is built for. -/
def USIZE : Nat := 2 ^ 32

/-- The `Image` component state, restricted to the fields the engine uses
(`bitmap_data`, `width`, `height`); the UI-only fields (canvas refs, select
refs, input cache) do not enter any engine computation. -/
structure Image where
  bitmap_data : List Nat
  width : Nat
  height : Nat
deriving DecidableEq

/-- The `ColorComponent` enum of the source. -/
inductive ColorComponent
  | Red
  | Green
  | Blue
  | Alpha
deriving DecidableEq

/-- The channel byte offset match in `apply_point_fn`. -/
def componentOffset : ColorComponent → Nat
  | .Red => 0
  | .Green => 1
  | .Blue => 2
  | .Alpha => 3

/-- The four arithmetic operations the UI dispatches to `apply_point_fn`
(`f32::add`, `f32::sub`, `f32::mul`, `f32::div`), modeled over `ℚ`. -/
inductive ArithmeticOp
  | Add
  | Subtract
  | Multiply
  | Divide
deriving DecidableEq

/-- Interpretation of an `ArithmeticOp` as the binary function passed to
`apply_point_fn`. -/
def ArithmeticOp.app : ArithmeticOp → ℚ → ℚ → ℚ
  | .Add => fun a b => a + b
  | .Subtract => fun a b => a - b
  | .Multiply => fun a b => a * b
  | .Divide => fun a b => a / b

/-- The `while index < len { ...; index += 4 }` loop of `apply_point_fn`:
read the byte at `index + offset`, apply `func`, cast back, store. -/
def pointGo (offset : Nat) (value : ℚ) (func : ℚ → ℚ → ℚ) :
    List Nat → Nat → Nat → List Nat
  | data, _, 0 => data
  | data, index, fuel + 1 =>
    if index < data.length then
      pointGo offset value func
        (data.set (index + offset) (u8castQ (func (readD data (index + offset)) value)))
        (index + 4) fuel
    else data

/-- `Image::apply_point_fn`: short-circuit when `value == 0.0`, otherwise run
the per-pixel loop on the selected channel. -/
def apply_point_fn (img : Image) (component : ColorComponent) (value : ℚ)
    (func : ℚ → ℚ → ℚ) : Image :=
  if value = 0 then img
  else
    { img with
      bitmap_data :=
        pointGo (componentOffset component) value func img.bitmap_data 0
          (img.bitmap_data.length + 1) }

/-- The per-byte brightness remap of `change_brightness` (after the halving):
normalize to `[0,1]`, darken or lighten linearly, rescale and cast. -/
def brightnessByte (b : Nat) (brightness : ℚ) : Nat :=
  let norm : ℚ := (b : ℚ) / 255
  let newVal : ℚ :=
    if brightness < 0 then norm * (1 + brightness)
    else norm + brightness * (1 - norm)
  u8castQ (newVal * 255)

/-- The `for i in 0..len` loop of `change_brightness`, skipping alpha bytes
(`i % 4 == 3`). -/
def brightGo (brightness : ℚ) : List Nat → Nat → Nat → List Nat
  | data, _, 0 => data
  | data, i, fuel + 1 =>
    if i < data.length then
      if i % 4 = 3 then brightGo brightness data (i + 1) fuel
      else brightGo brightness (data.set i (brightnessByte (readD data i) brightness)) (i + 1) fuel
    else data

/-- `Image::change_brightness`: halve the slider amount, then remap every
non-alpha byte in place. -/
def change_brightness (img : Image) (brightness : ℚ) : Image :=
  { img with
    bitmap_data := brightGo (brightness / 2) img.bitmap_data 0 (img.bitmap_data.length + 1) }

/-- The per-pixel gray value of `to_grayscale_avg`:
`((red + green + blue) / 3.0) as u8`.  The sum of three bytes is at most 765,
exactly representable in `f32`, and the truncated `f32` quotient equals the
exact rational floor for every such sum, so the exact model is faithful. -/
def grayAvgByte (r g b : Nat) : Nat := u8castQ (((r : ℚ) + (g : ℚ) + (b : ℚ)) / 3)

/-- The exact rational value of the `f32` literal `0.2126` in the source. -/
def W_R : ℚ := 891709 / 4194304

/-- The exact rational value of the `f32` literal `0.7152` in the source. -/
def W_G : ℚ := 11999065 / 16777216

/-- The exact rational value of the `f32` literal `0.0722` in the source. -/
def W_B : ℚ := 1211315 / 16777216

/-- The per-pixel gray value of `to_grayscale_avg_weighted`:
`(red*0.2126 + green*0.7152 + blue*0.0722) as u8` with the exact `f32`
constant values (their exact sum is 1, so white maps to white both here and
in the step-by-step `f32` evaluation, which also yields exactly 255.0). -/
def grayLumaByte (r g b : Nat) : Nat :=
  u8castQ ((r : ℚ) * W_R + (g : ℚ) * W_G + (b : ℚ) * W_B)

/-- The shared `while index < len { ...; index += 4 }` loop of both grayscale
conversions: compute the gray byte from the pixel's R,G,B and write it to all
three color positions, leaving alpha alone. -/
def grayGo (lum : Nat → Nat → Nat → Nat) : List Nat → Nat → Nat → List Nat
  | data, _, 0 => data
  | data, index, fuel + 1 =>
    if index < data.length then
      let g := lum (readD data index) (readD data (index + 1)) (readD data (index + 2))
      grayGo lum (((data.set index g).set (index + 1) g).set (index + 2) g) (index + 4) fuel
    else data

/-- `Image::to_grayscale_avg`. -/
def to_grayscale_avg (img : Image) : Image :=
  { img with
    bitmap_data := grayGo grayAvgByte img.bitmap_data 0 (img.bitmap_data.length + 1) }

/-- `Image::to_grayscale_avg_weighted`. -/
def to_grayscale_avg_weighted (img : Image) : Image :=
  { img with
    bitmap_data := grayGo grayLumaByte img.bitmap_data 0 (img.bitmap_data.length + 1) }

/-- The neighborhood linear index computed identically in all five
convolution filters: `index + (x - 1) * 4 + (y - 1) * width * 4` with
`x = i % 3`, `y = i / 3`, in wrapping `usize` arithmetic (the subtractions
underflow for `x = 0` / `y = 0`; `n - 1` wraps to `(n + 2^32 - 1) % 2^32`,
and the chained wrapping operations compose to a single final reduction). -/
def pixelIndex (w index i : Nat) : Nat :=
  (index + (i % 3 + (USIZE - 1)) * 4 + (i / 3 + (USIZE - 1)) * w * 4) % USIZE

/-- The skip guard shared by all five convolution filters:
`if pixel_index < 0 || pixel_index >= self.bitmap_data.len() { continue }`.
The first disjunct is the source's dead unsigned comparison. -/
def sampleSkipped (w len index i : Nat) : Prop :=
  pixelIndex w index i < 0 ∨ len ≤ pixelIndex w index i

instance (w len index i : Nat) : Decidable (sampleSkipped w len index i) :=
  inferInstanceAs (Decidable (_ ∨ _))

/-- Select one channel of an (R, G, B) result triple. -/
def tripleSel (t : Nat × Nat × Nat) (c : Nat) : Nat :=
  if c = 0 then t.1 else if c = 1 then t.2.1 else t.2.2

/-- The per-pixel body of `filter_smooth`: accumulate the in-bounds samples of
each color channel over the 3×3 neighborhood, then divide each sum by 9
(regardless of how many samples were in bounds). -/
def smoothPixel (w : Nat) (data : List Nat) (index : Nat) : Nat × Nat × Nat :=
  let acc :=
    (List.range 9).foldl
      (fun (acc : Nat × Nat × Nat) i =>
        if sampleSkipped w data.length index i then acc
        else
          (acc.1 + readD data (pixelIndex w index i),
           acc.2.1 + readD data (pixelIndex w index i + 1),
           acc.2.2 + readD data (pixelIndex w index i + 2)))
      (0, 0, 0)
  (acc.1 / 9, acc.2.1 / 9, acc.2.2 / 9)

/-- The sample array of one channel in `filter_median`: an array of nine
zeros, overwritten at position `i` by the sample value when it is in bounds
(skipped positions keep the zero fill). -/
def medianSamples (w : Nat) (data : List Nat) (index c : Nat) : List Nat :=
  (List.range 9).map fun i =>
    if sampleSkipped w data.length index i then 0
    else readD data (pixelIndex w index i + c)

/-- Insert into a sorted list, preserving ascending order. -/
def insertSorted (x : Nat) : List Nat → List Nat
  | [] => [x]
  | y :: ys => if x ≤ y then x :: y :: ys else y :: insertSorted x ys

/-- Ascending insertion sort; on `Nat` it produces the same list as the
source's `<[u32]>::sort` (the sorted permutation of a multiset of naturals
is unique). -/
def sortNats (l : List Nat) : List Nat := l.foldr insertSorted []

/-- The per-pixel body of `filter_median`: sort each channel's zero-filled
sample array ascending and take index 4. -/
def medianPixel (w : Nat) (data : List Nat) (index : Nat) : Nat × Nat × Nat :=
  ((sortNats (medianSamples w data index 0)).getD 4 0,
   (sortNats (medianSamples w data index 1)).getD 4 0,
   (sortNats (medianSamples w data index 2)).getD 4 0)

/-- The Sobel column/row weight match (`0 => -1, 1 => 0, 2 => 1`); the
argument is always `i % 3` or `i / 3` with `i < 9`, so the source's
`unreachable!` arm is never taken and is merged into the last case. -/
def xWeight : Nat → Int
  | 0 => -1
  | 1 => 0
  | _ => 1

/-- The gradient accumulation of one channel in `filter_sobel`: the pair
`(gx, gy)` summed over the in-bounds samples with the column weight
`xWeight (i % 3)` and the row weight `xWeight (i / 3)` (the source uses the
same `-1/0/1` match for both axes).  Accumulators are `i32` in the source;
the sums stay within `±4*255`, far from overflow, so `ℤ` is exact. -/
def sobelGrad (w : Nat) (data : List Nat) (index c : Nat) : Int × Int :=
  (List.range 9).foldl
    (fun (acc : Int × Int) i =>
      if sampleSkipped w data.length index i then acc
      else
        (acc.1 + (readD data (pixelIndex w index i + c) : Int) * xWeight (i % 3),
         acc.2 + (readD data (pixelIndex w index i + c) : Int) * xWeight (i / 3)))
    (0, 0)

/-- The magnitude cast of `filter_sobel`:
`((gx*gx + gy*gy) as f32).sqrt() as u8`.  The operand is a nonnegative
integer below `2^24` (at most `2*1020^2`), hence exactly representable in
`f32`; `f32::sqrt` is correctly rounded and its truncating saturating cast
agrees with `min 255 (Nat.sqrt n)` on that whole range. -/
def sobelMagnitude (g : Int × Int) : Nat :=
  min 255 (Nat.sqrt (g.1 * g.1 + g.2 * g.2).toNat)

/-- The per-pixel body of `filter_sobel`. -/
def sobelPixel (w : Nat) (data : List Nat) (index : Nat) : Nat × Nat × Nat :=
  (sobelMagnitude (sobelGrad w data index 0),
   sobelMagnitude (sobelGrad w data index 1),
   sobelMagnitude (sobelGrad w data index 2))

/-- The high-pass kernel weight of `filter_highpass_sharpen`: `8/9` at the
center `(x, y) = (1, 1)` and `-1/9` elsewhere. -/
def hpWeight (i : Nat) : ℚ :=
  if i % 3 = 1 ∧ i / 3 = 1 then 8 / 9 else -1 / 9

/-- The per-pixel body of the first pass of `filter_highpass_sharpen`:
`f32` weighted accumulation (modeled exactly over `ℚ`) followed by the
saturating cast. -/
def highpassPixel (w : Nat) (data : List Nat) (index : Nat) : Nat × Nat × Nat :=
  let acc :=
    (List.range 9).foldl
      (fun (acc : ℚ × ℚ × ℚ) i =>
        if sampleSkipped w data.length index i then acc
        else
          (acc.1 + (readD data (pixelIndex w index i) : ℚ) * hpWeight i,
           acc.2.1 + (readD data (pixelIndex w index i + 1) : ℚ) * hpWeight i,
           acc.2.2 + (readD data (pixelIndex w index i + 2) : ℚ) * hpWeight i))
      (0, 0, 0)
  (u8castQ acc.1, u8castQ acc.2.1, u8castQ acc.2.2)

/-- The Gaussian kernel weight match of `filter_gaussian_blur` on
`(x, y) = (i % 3, i / 3)` (`[[1,2,1],[2,4,2],[1,2,1]]`; the `unreachable!`
arm is never taken for `i < 9` and is merged into the final case). -/
def gaussWeight (i : Nat) : Nat :=
  match i % 3, i / 3 with
  | 0, 0 => 1
  | 1, 0 => 2
  | 2, 0 => 1
  | 0, 1 => 2
  | 1, 1 => 4
  | 2, 1 => 2
  | 0, 2 => 1
  | 1, 2 => 2
  | _, _ => 1

/-- The per-pixel body of `filter_gaussian_blur`: weighted in-bounds sums
divided by 16 (`i32` accumulators stay nonnegative and small, so `Nat` with
truncating division is exact). -/
def gaussPixel (w : Nat) (data : List Nat) (index : Nat) : Nat × Nat × Nat :=
  let acc :=
    (List.range 9).foldl
      (fun (acc : Nat × Nat × Nat) i =>
        if sampleSkipped w data.length index i then acc
        else
          (acc.1 + readD data (pixelIndex w index i) * gaussWeight i,
           acc.2.1 + readD data (pixelIndex w index i + 1) * gaussWeight i,
           acc.2.2 + readD data (pixelIndex w index i + 2) * gaussWeight i))
      (0, 0, 0)
  (acc.1 / 16, acc.2.1 / 16, acc.2.2 / 16)

/-- The shared out-of-place convolution loop: every filter clones the buffer,
walks pixel starts `index = 0, 4, 8, ...` while `index < old.length`, writes
the three color results into the clone and leaves the alpha byte as cloned,
reading only from the original buffer. -/
def passGo (f : List Nat → Nat → Nat × Nat × Nat) :
    List Nat → List Nat → Nat → Nat → List Nat
  | _, new, _, 0 => new
  | old, new, index, fuel + 1 =>
    if index < old.length then
      passGo f old
        (((new.set index (f old index).1).set (index + 1) (f old index).2.1).set (index + 2)
          (f old index).2.2)
        (index + 4) fuel
    else new

/-- Run a convolution pass starting from a clone of the buffer. -/
def runPass (f : List Nat → Nat → Nat × Nat × Nat) (data : List Nat) : List Nat :=
  passGo f data data 0 (data.length + 1)

/-- `Image::filter_smooth`. -/
def filter_smooth (img : Image) : Image :=
  { img with bitmap_data := runPass (smoothPixel img.width) img.bitmap_data }

/-- `Image::filter_median`. -/
def filter_median (img : Image) : Image :=
  { img with bitmap_data := runPass (medianPixel img.width) img.bitmap_data }

/-- `Image::filter_sobel`. -/
def filter_sobel (img : Image) : Image :=
  { img with bitmap_data := runPass (sobelPixel img.width) img.bitmap_data }

/-- `Image::filter_gaussian_blur`. -/
def filter_gaussian_blur (img : Image) : Image :=
  { img with bitmap_data := runPass (gaussPixel img.width) img.bitmap_data }

/-- `u8::saturating_add`. -/
def satAdd (a b : Nat) : Nat := min 255 (a + b)

/-- The second pass of `filter_highpass_sharpen`: add the high-pass buffer's
color bytes to the original ones with `saturating_add`, in place (each
iteration reads only the positions it writes, before writing them). -/
def combineGo (hp : List Nat) : List Nat → Nat → Nat → List Nat
  | data, _, 0 => data
  | data, index, fuel + 1 =>
    if index < data.length then
      combineGo hp
        (((data.set index (satAdd (readD data index) (readD hp index))).set (index + 1)
              (satAdd (readD data (index + 1)) (readD hp (index + 1)))).set
          (index + 2) (satAdd (readD data (index + 2)) (readD hp (index + 2))))
        (index + 4) fuel
    else data

/-- `Image::filter_highpass_sharpen`: high-pass pass into a scratch buffer,
then saturating combine. -/
def filter_highpass_sharpen (img : Image) : Image :=
  let hp := runPass (highpassPixel img.width) img.bitmap_data
  { img with bitmap_data := combineGo hp img.bitmap_data 0 (img.bitmap_data.length + 1) }

/-- A uniform-color buffer: `n` pixels, all equal to `(r, g, b, a)`. -/
def uniformData (r g b a : Nat) : Nat → List Nat
  | 0 => []
  | n + 1 => r :: g :: b :: a :: uniformData r g b a n

/-! ## Basic buffer lemmas -/

theorem readD_set_self : ∀ (l : List Nat) (i a : Nat), i < l.length → readD (l.set i a) i = a
  | [], i, _, h => absurd h (by simp)
  | _ :: _, 0, _, _ => rfl
  | x :: xs, i + 1, a, h =>
    readD_set_self xs i a (by simpa using h)

theorem readD_set_ne : ∀ (l : List Nat) (i j a : Nat), i ≠ j → readD (l.set i a) j = readD l j
  | [], _, _, _, _ => rfl
  | _ :: _, 0, 0, _, h => absurd rfl h
  | _ :: _, 0, _ + 1, _, _ => rfl
  | _ :: _, _ + 1, 0, _, _ => rfl
  | _ :: xs, i + 1, j + 1, a, h =>
    readD_set_ne xs i j a (fun hij => h (by omega))

theorem uniformData_length (r g b a : Nat) : ∀ n, (uniformData r g b a n).length = 4 * n
  | 0 => rfl
  | n + 1 => by simp [uniformData, uniformData_length r g b a n]; omega

theorem uniformData_readD (r g b a : Nat) :
    ∀ (n j : Nat), j < 4 * n → readD (uniformData r g b a n) j = readD [r, g, b, a] (j % 4)
  | 0, j, h => absurd h (by omega)
  | n + 1, j, h => by
    match j, h with
    | 0, _ => rfl
    | 1, _ => rfl
    | 2, _ => rfl
    | 3, _ => rfl
    | j + 4, h => {
        have hrec := uniformData_readD r g b a n j (by omega)
        have hmod : (j + 4) % 4 = j % 4 := by omega
        simpa [uniformData, readD, hmod] using hrec }

/-! ## Loop length lemmas -/

theorem pointGo_length (offset : Nat) (value : ℚ) (func : ℚ → ℚ → ℚ) :
    ∀ (fuel : Nat) (data : List Nat) (index : Nat),
      (pointGo offset value func data index fuel).length = data.length
  | 0, _, _ => rfl
  | fuel + 1, data, index => by
    rw [pointGo]
    split
    · rw [pointGo_length offset value func fuel]
      simp
    · rfl

theorem brightGo_length (brightness : ℚ) :
    ∀ (fuel : Nat) (data : List Nat) (i : Nat),
      (brightGo brightness data i fuel).length = data.length
  | 0, _, _ => rfl
  | fuel + 1, data, i => by
    rw [brightGo]
    split
    · split
      · rw [brightGo_length brightness fuel]
      · rw [brightGo_length brightness fuel]
        simp
    · rfl

theorem grayGo_length (lum : Nat → Nat → Nat → Nat) :
    ∀ (fuel : Nat) (data : List Nat) (index : Nat),
      (grayGo lum data index fuel).length = data.length
  | 0, _, _ => rfl
  | fuel + 1, data, index => by
    rw [grayGo]
    split
    · rw [grayGo_length lum fuel]
      simp
    · rfl

theorem passGo_length (f : List Nat → Nat → Nat × Nat × Nat) :
    ∀ (fuel : Nat) (old new : List Nat) (index : Nat),
      (passGo f old new index fuel).length = new.length
  | 0, _, _, _ => rfl
  | fuel + 1, old, new, index => by
    rw [passGo]
    split
    · rw [passGo_length f fuel]
      simp
    · rfl

theorem runPass_length (f : List Nat → Nat → Nat × Nat × Nat) (data : List Nat) :
    (runPass f data).length = data.length :=
  passGo_length f (data.length + 1) data data 0

/-! ## Loop characterization lemmas -/

/-- Pointwise description of the shared convolution loop: the bytes of pixels
whose start lies at or after `index` get the three channel results of `f`
applied to the original buffer, alpha bytes and everything before `index` or
past the end stay as in `new`. -/
theorem passGo_readD (f : List Nat → Nat → Nat × Nat × Nat) (old : List Nat)
    (hlen4 : 4 ∣ old.length) :
    ∀ (fuel : Nat) (new : List Nat) (index j : Nat), new.length = old.length → 4 ∣ index →
      old.length ≤ index + 4 * fuel →
      readD (passGo f old new index fuel) j =
        if index ≤ j ∧ j < old.length ∧ j % 4 ≠ 3 then tripleSel (f old (j - j % 4)) (j % 4)
        else readD new j
  | 0, new, index, j, _, _, hfuel => by
    rw [passGo, if_neg]
    omega
  | fuel + 1, new, index, j, hnew, hidx, hfuel => by
    rw [passGo]
    by_cases hguard : index < old.length
    · rw [if_pos hguard]
      set t := f old index with ht
      set new' := ((new.set index t.1).set (index + 1) t.2.1).set (index + 2) t.2.2 with hnew'
      have hlen' : new'.length = old.length := by simp [hnew', hnew]
      rw [passGo_readD f old hlen4 fuel new' (index + 4) j hlen' (by omega) (by omega)]
      by_cases hj1 : index + 4 ≤ j ∧ j < old.length ∧ j % 4 ≠ 3
      · rw [if_pos hj1, if_pos ⟨by omega, hj1.2⟩]
      · rw [if_neg hj1]
        by_cases hj2 : index ≤ j ∧ j < old.length ∧ j % 4 ≠ 3
        · rw [if_pos hj2]
          obtain ⟨h1, h2, h3⟩ := hj2
          have hj4 : j < index + 4 := by
            by_contra hc
            exact hj1 ⟨by omega, h2, h3⟩
          obtain ⟨k, hk⟩ := hidx
          have hcase : j = index ∨ j = index + 1 ∨ j = index + 2 := by omega
          have hwf : index + 2 < new.length := by
            rw [hnew]
            omega
          have hlenA : (new.set index t.1).length = new.length := by simp
          have hlenB : ((new.set index t.1).set (index + 1) t.2.1).length = new.length := by
            simp
          rcases hcase with hc | hc | hc
          · have hmod : j % 4 = 0 := by omega
            have hjsub : j - j % 4 = index := by omega
            rw [hjsub, hmod, hnew', readD_set_ne _ _ _ _ (by omega),
              readD_set_ne _ _ _ _ (by omega), hc, readD_set_self _ _ _ (by omega)]
            simp [tripleSel]
          · have hmod : j % 4 = 1 := by omega
            have hjsub : j - j % 4 = index := by omega
            rw [hjsub, hmod, hnew', readD_set_ne _ _ _ _ (by omega), hc,
              readD_set_self _ _ _ (by omega)]
            simp [tripleSel]
          · have hmod : j % 4 = 2 := by omega
            have hjsub : j - j % 4 = index := by omega
            rw [hjsub, hmod, hnew', hc, readD_set_self _ _ _ (by omega)]
            simp [tripleSel]
        · rw [if_neg hj2]
          have hne0 : index ≠ j := by
            intro hc
            exact hj2 ⟨by omega, by omega, by omega⟩
          have hne1 : index + 1 ≠ j := by
            intro hc
            exact hj2 ⟨by omega, by omega, by omega⟩
          have hne2 : index + 2 ≠ j := by
            intro hc
            exact hj2 ⟨by omega, by omega, by omega⟩
          rw [hnew', readD_set_ne _ _ _ _ hne2, readD_set_ne _ _ _ _ hne1,
            readD_set_ne _ _ _ _ hne0]
    · rw [if_neg hguard, if_neg]
      omega

/-- Pointwise description of a full convolution pass started on a clone. -/
theorem runPass_readD (f : List Nat → Nat → Nat × Nat × Nat) (data : List Nat)
    (hlen4 : 4 ∣ data.length) (j : Nat) :
    readD (runPass f data) j =
      if j < data.length ∧ j % 4 ≠ 3 then tripleSel (f data (j - j % 4)) (j % 4)
      else readD data j := by
  rw [runPass, passGo_readD f data hlen4 (data.length + 1) data 0 j rfl ⟨0, rfl⟩ (by omega)]
  simp

/-- Pointwise description of the `apply_point_fn` loop: exactly the bytes at
the selected channel offset (at or after `index`) are remapped; each is
computed from its own original value. -/
theorem pointGo_readD (offset : Nat) (value : ℚ) (func : ℚ → ℚ → ℚ) (hoff : offset < 4) :
    ∀ (fuel : Nat) (data : List Nat) (index j : Nat), 4 ∣ data.length → 4 ∣ index →
      data.length ≤ index + 4 * fuel →
      readD (pointGo offset value func data index fuel) j =
        if index ≤ j ∧ j < data.length ∧ j % 4 = offset then
          u8castQ (func (readD data j) value)
        else readD data j
  | 0, data, index, j, _, _, hfuel => by
    rw [pointGo, if_neg]
    omega
  | fuel + 1, data, index, j, hlen4, hidx, hfuel => by
    rw [pointGo]
    by_cases hguard : index < data.length
    · rw [if_pos hguard]
      set v := u8castQ (func (readD data (index + offset)) value) with hv
      set data' := data.set (index + offset) v with hdata'
      have hlen' : data'.length = data.length := by simp [hdata']
      have hio : index + offset < data.length := by omega
      rw [pointGo_readD offset value func hoff fuel data' (index + 4) j (by rw [hlen']; exact hlen4)
        (by omega) (by omega)]
      by_cases hj1 : index + 4 ≤ j ∧ j < data.length ∧ j % 4 = offset
      · rw [hlen', if_pos hj1, if_pos ⟨by omega, hj1.2⟩, hdata',
          readD_set_ne _ _ _ _ (by omega)]
      · rw [hlen', if_neg hj1]
        by_cases hj2 : index ≤ j ∧ j < data.length ∧ j % 4 = offset
        · rw [if_pos hj2]
          obtain ⟨h1, h2, h3⟩ := hj2
          obtain ⟨k, hk⟩ := hidx
          have hje : j = index + offset := by omega
          rw [hje, hdata', readD_set_self _ _ _ hio, hv]
        · rw [if_neg hj2]
          have hne : index + offset ≠ j := by
            intro hc
            obtain ⟨k, hk⟩ := hidx
            exact hj2 ⟨by omega, by omega, by omega⟩
          rw [hdata', readD_set_ne _ _ _ _ hne]
    · rw [if_neg hguard, if_neg]
      omega

/-- Pointwise description of the shared grayscale loop: every color byte of a
pixel at or after `index` becomes `lum` of the pixel's original R, G, B;
alpha bytes are untouched. -/
theorem grayGo_readD (lum : Nat → Nat → Nat → Nat) :
    ∀ (fuel : Nat) (data : List Nat) (index j : Nat), 4 ∣ data.length → 4 ∣ index →
      data.length ≤ index + 4 * fuel →
      readD (grayGo lum data index fuel) j =
        if index ≤ j ∧ j < data.length ∧ j % 4 ≠ 3 then
          lum (readD data (j - j % 4)) (readD data (j - j % 4 + 1)) (readD data (j - j % 4 + 2))
        else readD data j
  | 0, data, index, j, _, _, hfuel => by
    rw [grayGo, if_neg]
    omega
  | fuel + 1, data, index, j, hlen4, hidx, hfuel => by
    rw [grayGo]
    by_cases hguard : index < data.length
    · rw [if_pos hguard]
      set g := lum (readD data index) (readD data (index + 1)) (readD data (index + 2)) with hg
      set data' := ((data.set index g).set (index + 1) g).set (index + 2) g with hdata'
      have hlen' : data'.length = data.length := by simp [hdata']
      have hwf : index + 2 < data.length := by omega
      have hread' : ∀ m, index + 4 ≤ m → readD data' m = readD data m := by
        intro m hm
        rw [hdata', readD_set_ne _ _ _ _ (by omega), readD_set_ne _ _ _ _ (by omega),
          readD_set_ne _ _ _ _ (by omega)]
      rw [grayGo_readD lum fuel data' (index + 4) j (by rw [hlen']; exact hlen4)
        (by omega) (by omega)]
      obtain ⟨k, hk⟩ := hidx
      by_cases hj1 : index + 4 ≤ j ∧ j < data.length ∧ j % 4 ≠ 3
      · have hp : index + 4 ≤ j - j % 4 := by omega
        rw [hlen', if_pos hj1, if_pos ⟨by omega, hj1.2⟩, hread' _ hp, hread' _ (by omega),
          hread' _ (by omega)]
      · rw [hlen', if_neg hj1]
        by_cases hj2 : index ≤ j ∧ j < data.length ∧ j % 4 ≠ 3
        · rw [if_pos hj2]
          obtain ⟨h1, h2, h3⟩ := hj2
          have hj4 : j < index + 4 := by
            by_contra hc
            exact hj1 ⟨by omega, h2, h3⟩
          have hsub : j - j % 4 = index := by omega
          rw [hsub]
          have hlenA : (data.set index g).length = data.length := by simp
          have hlenB : ((data.set index g).set (index + 1) g).length = data.length := by simp
          have hcase : j = index ∨ j = index + 1 ∨ j = index + 2 := by omega
          rcases hcase with hc | hc | hc
          · rw [hdata', readD_set_ne _ _ _ _ (by omega), readD_set_ne _ _ _ _ (by omega), hc,
              readD_set_self _ _ _ (by omega)]
          · rw [hdata', readD_set_ne _ _ _ _ (by omega), hc, readD_set_self _ _ _ (by omega)]
          · rw [hdata', hc, readD_set_self _ _ _ (by omega)]
        · rw [if_neg hj2]
          have hne0 : index ≠ j := by
            intro hc
            exact hj2 ⟨by omega, by omega, by omega⟩
          have hne1 : index + 1 ≠ j := by
            intro hc
            exact hj2 ⟨by omega, by omega, by omega⟩
          have hne2 : index + 2 ≠ j := by
            intro hc
            exact hj2 ⟨by omega, by omega, by omega⟩
          rw [hdata', readD_set_ne _ _ _ _ hne2, readD_set_ne _ _ _ _ hne1,
            readD_set_ne _ _ _ _ hne0]
    · rw [if_neg hguard, if_neg]
      omega

theorem combineGo_length (hp : List Nat) :
    ∀ (fuel : Nat) (data : List Nat) (index : Nat),
      (combineGo hp data index fuel).length = data.length
  | 0, _, _ => rfl
  | fuel + 1, data, index => by
    rw [combineGo]
    split
    · rw [combineGo_length hp fuel]
      simp
    · rfl

/-! ## Index arithmetic lemmas -/

theorem pixelIndex_mod_four (w index i : Nat) : pixelIndex w index i % 4 = index % 4 := by
  unfold pixelIndex
  rw [Nat.mod_mod_of_dvd _ (by decide : (4 : Nat) ∣ USIZE)]
  generalize i % 3 + (USIZE - 1) = A
  generalize (i / 3 + (USIZE - 1)) * w = B
  omega

theorem sample_not_skipped_lt {w len index i : Nat} (h : ¬ sampleSkipped w len index i) :
    pixelIndex w index i < len := by
  unfold sampleSkipped at h
  omega

/-- Under the length invariant, every accepted neighborhood index is pixel
aligned and leaves room for all three color bytes. -/
theorem accepted_pixelIndex_bound {w len index i : Nat} (hlen : 4 ∣ len) (hidx : 4 ∣ index)
    (h : ¬ sampleSkipped w len index i) : pixelIndex w index i + 2 < len := by
  have h1 := sample_not_skipped_lt h
  have h2 := pixelIndex_mod_four w index i
  omega

/-- When the signed offset arithmetic would not underflow and the true value
`t` fits in a word, the wrapping computation returns exactly `t`. -/
theorem pixelIndex_eq_of_no_underflow (w index i t : Nat)
    (ht : index + i % 3 * 4 + i / 3 * w * 4 = t + 4 + w * 4) (hlt : t < USIZE) :
    pixelIndex w index i = t := by
  unfold pixelIndex
  simp only [show USIZE - 1 = 4294967295 from by norm_num [USIZE],
    show USIZE = 4294967296 from by norm_num [USIZE]] at hlt ⊢
  have hexp : (i / 3 + 4294967295) * w * 4 = i / 3 * w * 4 + 4294967295 * w * 4 := by ring
  rw [hexp]
  set m := i / 3 * w with hm
  omega

/-! ## Saturating cast lemmas -/

theorem u8castQ_le_255 (q : ℚ) : u8castQ q ≤ 255 := min_le_left _ _

theorem u8castQ_of_nonpos {q : ℚ} (h : q ≤ 0) : u8castQ q = 0 := by
  unfold u8castQ
  rw [Nat.floor_of_nonpos h]
  omega

theorem u8castQ_of_ge {q : ℚ} (h : 255 ≤ q) : u8castQ q = 255 := by
  unfold u8castQ
  have h255 : (255 : Nat) ≤ ⌊q⌋₊ := Nat.le_floor (by exact_mod_cast h)
  omega

theorem u8castQ_eq_clamp (q : ℚ) : (u8castQ q : ℤ) = min 255 (max 0 ⌊q⌋) := by
  unfold u8castQ
  rw [← Int.floor_toNat]
  generalize ⌊q⌋ = k
  rcases le_total k 0 with hk | hk
  · rw [Int.toNat_of_nonpos hk]
    omega
  · rw [max_eq_right hk]
    rcases le_total k 255 with hk2 | hk2
    · rw [min_eq_right hk2, min_eq_right (by omega : k.toNat ≤ 255)]
      omega
    · rw [min_eq_left hk2, min_eq_left (by omega : (255 : Nat) ≤ k.toNat)]
      omega

theorem grayAvgByte_eq_div (r g b : Nat) (hr : r < 256) (hg : g < 256) (hb : b < 256) :
    grayAvgByte r g b = (r + g + b) / 3 := by
  unfold grayAvgByte u8castQ
  have hcast : ((r : ℚ) + (g : ℚ) + (b : ℚ)) / 3 = ((r + g + b : ℕ) : ℚ) / ((3 : ℕ) : ℚ) := by
    push_cast
    ring
  rw [hcast, Nat.floor_div_nat, Nat.floor_natCast]
  omega

/-! ## Uniform-buffer sample lemmas -/

theorem foldl_range9 {α : Type} (g : α → Nat → α) (init : α) :
    (List.range 9).foldl g init =
      g (g (g (g (g (g (g (g (g init 0) 1) 2) 3) 4) 5) 6) 7) 8 := rfl

theorem uniform_readD_channel (r g b a n j c : Nat) (hj : j % 4 = 0) (hc : c < 4)
    (hlt : j + c < 4 * n) :
    readD (uniformData r g b a n) (j + c) = readD [r, g, b, a] c := by
  rw [uniformData_readD r g b a n (j + c) hlt]
  have hmod : (j + c) % 4 = c := by omega
  rw [hmod]

theorem uniform_sample (r g b a n w index i : Nat) (hidx : index % 4 = 0)
    (h : ¬ sampleSkipped w (4 * n) index i) :
    readD (uniformData r g b a n) (pixelIndex w index i) = r ∧
    readD (uniformData r g b a n) (pixelIndex w index i + 1) = g ∧
    readD (uniformData r g b a n) (pixelIndex w index i + 2) = b := by
  have hmod := pixelIndex_mod_four w index i
  have hpm : pixelIndex w index i % 4 = 0 := by omega
  have hb : pixelIndex w index i + 2 < 4 * n :=
    accepted_pixelIndex_bound ⟨n, rfl⟩ (Nat.dvd_of_mod_eq_zero hidx) h
  refine ⟨?_, ?_, ?_⟩
  · have h0 := uniform_readD_channel r g b a n (pixelIndex w index i) 0 hpm (by omega) (by omega)
    simpa using h0
  · exact uniform_readD_channel r g b a n (pixelIndex w index i) 1 hpm (by omega) (by omega)
  · exact uniform_readD_channel r g b a n (pixelIndex w index i) 2 hpm (by omega) (by omega)

theorem uniform_sample_c (r g b a n w index i c : Nat) (hidx : index % 4 = 0) (hc : c < 3)
    (h : ¬ sampleSkipped w (4 * n) index i) :
    readD (uniformData r g b a n) (pixelIndex w index i + c) = readD [r, g, b, a] c := by
  have hmod := pixelIndex_mod_four w index i
  have hb := accepted_pixelIndex_bound ⟨n, rfl⟩ (Nat.dvd_of_mod_eq_zero hidx) h
  exact uniform_readD_channel r g b a n (pixelIndex w index i) c (by omega) (by omega) (by omega)

set_option maxHeartbeats 1600000 in
/-- On a uniform buffer, a pixel all of whose nine samples are in bounds gets
its own color back from the smooth filter (nine equal samples divided
by nine). -/
theorem smoothPixel_uniform (r g b a n w index : Nat) (hidx : index % 4 = 0)
    (hns : ∀ i, i < 9 → ¬ sampleSkipped w (4 * n) index i) :
    smoothPixel w (uniformData r g b a n) index = (r, g, b) := by
  have hlen := uniformData_length r g b a n
  obtain ⟨h0r, h0g, h0b⟩ := uniform_sample r g b a n w index 0 hidx (hns 0 (by omega))
  obtain ⟨h1r, h1g, h1b⟩ := uniform_sample r g b a n w index 1 hidx (hns 1 (by omega))
  obtain ⟨h2r, h2g, h2b⟩ := uniform_sample r g b a n w index 2 hidx (hns 2 (by omega))
  obtain ⟨h3r, h3g, h3b⟩ := uniform_sample r g b a n w index 3 hidx (hns 3 (by omega))
  obtain ⟨h4r, h4g, h4b⟩ := uniform_sample r g b a n w index 4 hidx (hns 4 (by omega))
  obtain ⟨h5r, h5g, h5b⟩ := uniform_sample r g b a n w index 5 hidx (hns 5 (by omega))
  obtain ⟨h6r, h6g, h6b⟩ := uniform_sample r g b a n w index 6 hidx (hns 6 (by omega))
  obtain ⟨h7r, h7g, h7b⟩ := uniform_sample r g b a n w index 7 hidx (hns 7 (by omega))
  obtain ⟨h8r, h8g, h8b⟩ := uniform_sample r g b a n w index 8 hidx (hns 8 (by omega))
  unfold smoothPixel
  rw [foldl_range9]
  simp only [hlen, if_neg (hns 0 (by omega)), if_neg (hns 1 (by omega)),
    if_neg (hns 2 (by omega)), if_neg (hns 3 (by omega)), if_neg (hns 4 (by omega)),
    if_neg (hns 5 (by omega)), if_neg (hns 6 (by omega)), if_neg (hns 7 (by omega)),
    if_neg (hns 8 (by omega)), h0r, h0g, h0b, h1r, h1g, h1b, h2r, h2g, h2b, h3r, h3g, h3b,
    h4r, h4g, h4b, h5r, h5g, h5b, h6r, h6g, h6b, h7r, h7g, h7b, h8r, h8g, h8b,
    Prod.mk.injEq]
  refine ⟨by omega, by omega, by omega⟩

set_option maxHeartbeats 1600000 in
/-- On a uniform buffer, a pixel all of whose nine samples are in bounds gets
its own color back from the Gaussian blur (total kernel weight 16, divided
by 16). -/
theorem gaussPixel_uniform (r g b a n w index : Nat) (hidx : index % 4 = 0)
    (hns : ∀ i, i < 9 → ¬ sampleSkipped w (4 * n) index i) :
    gaussPixel w (uniformData r g b a n) index = (r, g, b) := by
  have hlen := uniformData_length r g b a n
  obtain ⟨h0r, h0g, h0b⟩ := uniform_sample r g b a n w index 0 hidx (hns 0 (by omega))
  obtain ⟨h1r, h1g, h1b⟩ := uniform_sample r g b a n w index 1 hidx (hns 1 (by omega))
  obtain ⟨h2r, h2g, h2b⟩ := uniform_sample r g b a n w index 2 hidx (hns 2 (by omega))
  obtain ⟨h3r, h3g, h3b⟩ := uniform_sample r g b a n w index 3 hidx (hns 3 (by omega))
  obtain ⟨h4r, h4g, h4b⟩ := uniform_sample r g b a n w index 4 hidx (hns 4 (by omega))
  obtain ⟨h5r, h5g, h5b⟩ := uniform_sample r g b a n w index 5 hidx (hns 5 (by omega))
  obtain ⟨h6r, h6g, h6b⟩ := uniform_sample r g b a n w index 6 hidx (hns 6 (by omega))
  obtain ⟨h7r, h7g, h7b⟩ := uniform_sample r g b a n w index 7 hidx (hns 7 (by omega))
  obtain ⟨h8r, h8g, h8b⟩ := uniform_sample r g b a n w index 8 hidx (hns 8 (by omega))
  unfold gaussPixel
  rw [foldl_range9]
  simp only [hlen, if_neg (hns 0 (by omega)), if_neg (hns 1 (by omega)),
    if_neg (hns 2 (by omega)), if_neg (hns 3 (by omega)), if_neg (hns 4 (by omega)),
    if_neg (hns 5 (by omega)), if_neg (hns 6 (by omega)), if_neg (hns 7 (by omega)),
    if_neg (hns 8 (by omega)), h0r, h0g, h0b, h1r, h1g, h1b, h2r, h2g, h2b, h3r, h3g, h3b,
    h4r, h4g, h4b, h5r, h5g, h5b, h6r, h6g, h6b, h7r, h7g, h7b, h8r, h8g, h8b,
    gaussWeight, Prod.mk.injEq]
  refine ⟨by omega, by omega, by omega⟩

set_option maxHeartbeats 1600000 in
/-- On a uniform buffer, both gradient sums of a pixel all of whose nine
samples are in bounds cancel to zero (the nine equal samples meet the
weights `-1, 0, 1` three times each). -/
theorem sobelGrad_uniform (r g b a n w index c : Nat) (hidx : index % 4 = 0) (hc : c < 3)
    (hns : ∀ i, i < 9 → ¬ sampleSkipped w (4 * n) index i) :
    sobelGrad w (uniformData r g b a n) index c = (0, 0) := by
  have hlen := uniformData_length r g b a n
  have h0 := uniform_sample_c r g b a n w index 0 c hidx hc (hns 0 (by omega))
  have h1 := uniform_sample_c r g b a n w index 1 c hidx hc (hns 1 (by omega))
  have h2 := uniform_sample_c r g b a n w index 2 c hidx hc (hns 2 (by omega))
  have h3 := uniform_sample_c r g b a n w index 3 c hidx hc (hns 3 (by omega))
  have h4 := uniform_sample_c r g b a n w index 4 c hidx hc (hns 4 (by omega))
  have h5 := uniform_sample_c r g b a n w index 5 c hidx hc (hns 5 (by omega))
  have h6 := uniform_sample_c r g b a n w index 6 c hidx hc (hns 6 (by omega))
  have h7 := uniform_sample_c r g b a n w index 7 c hidx hc (hns 7 (by omega))
  have h8 := uniform_sample_c r g b a n w index 8 c hidx hc (hns 8 (by omega))
  unfold sobelGrad
  rw [foldl_range9]
  simp only [hlen, if_neg (hns 0 (by omega)), if_neg (hns 1 (by omega)),
    if_neg (hns 2 (by omega)), if_neg (hns 3 (by omega)), if_neg (hns 4 (by omega)),
    if_neg (hns 5 (by omega)), if_neg (hns 6 (by omega)), if_neg (hns 7 (by omega)),
    if_neg (hns 8 (by omega)), h0, h1, h2, h3, h4, h5, h6, h7, h8, xWeight,
    Prod.mk.injEq]
  norm_num

/-- On a uniform buffer, a pixel all of whose nine samples are in bounds gets
all-zero color channels from the Sobel filter. -/
theorem sobelPixel_uniform (r g b a n w index : Nat) (hidx : index % 4 = 0)
    (hns : ∀ i, i < 9 → ¬ sampleSkipped w (4 * n) index i) :
    sobelPixel w (uniformData r g b a n) index = (0, 0, 0) := by
  unfold sobelPixel
  rw [sobelGrad_uniform r g b a n w index 0 hidx (by omega) hns,
    sobelGrad_uniform r g b a n w index 1 hidx (by omega) hns,
    sobelGrad_uniform r g b a n w index 2 hidx (by omega) hns]
  simp [sobelMagnitude]

/-- Luma of pure white: the exact sum of the three `f32` weight constants is
1, so white is a fixed point of the weighted grayscale byte map. -/
theorem grayLumaByte_white : grayLumaByte 255 255 255 = 255 := by
  unfold grayLumaByte
  rw [show ((255 : ℕ) : ℚ) * W_R + ((255 : ℕ) : ℚ) * W_G + ((255 : ℕ) : ℚ) * W_B = 255 from by
    norm_num [W_R, W_G, W_B]]
  unfold u8castQ
  simp

/-- Error bound for the add-then-subtract round trip on one byte when the
intermediate value does not saturate. -/
theorem roundtrip_byte (b : Nat) (v : ℚ) (hb : b < 256) (h0 : 0 ≤ (b : ℚ) + v)
    (h1 : (b : ℚ) + v < 256) :
    ((u8castQ ((u8castQ ((b : ℚ) + v) : ℚ) - v) : ℤ) - (b : ℤ)).natAbs ≤ 1 := by
  set m := ⌊(b : ℚ) + v⌋₊ with hm
  have hm1 : (m : ℚ) ≤ (b : ℚ) + v := Nat.floor_le h0
  have hm2 : (b : ℚ) + v < m + 1 := Nat.lt_floor_add_one _
  have hm255 : m < 256 := by
    rw [hm]
    exact (Nat.floor_lt h0).mpr (by exact_mod_cast h1)
  have hfirst : u8castQ ((b : ℚ) + v) = m := by
    unfold u8castQ
    rw [← hm]
    omega
  rw [hfirst]
  rcases le_or_lt ((m : ℚ) - v) 0 with hneg | hpos
  · rw [u8castQ_of_nonpos hneg]
    have hb0 : (b : ℚ) < 1 := by linarith
    have hb0' : b = 0 := by
      have : b < 1 := by exact_mod_cast hb0
      omega
    simp [hb0']
  · set x : ℚ := (m : ℚ) - v with hx
    have hxb : x ≤ (b : ℚ) := by
      rw [hx]
      linarith
    have hfl_le : ⌊x⌋₊ ≤ b := by
      have hmono := Nat.floor_mono hxb
      simpa using hmono
    have hfl_ge : b ≤ ⌊x⌋₊ + 1 := by
      by_cases hb1 : b = 0
      · omega
      · have hcast : ((b - 1 : ℕ) : ℚ) = (b : ℚ) - 1 := by
          have hge : 1 ≤ b := by omega
          push_cast [hge]
          ring
        have hle : ((b - 1 : ℕ) : ℚ) ≤ x := by
          rw [hcast, hx]
          linarith
        have := Nat.le_floor hle
        omega
    have hcast2 : u8castQ x = ⌊x⌋₊ := by
      unfold u8castQ
      omega
    rw [hcast2]
    omega

/-! ## Claim theorems -/

/-- C1: for every well-formed buffer (`pixels.len() == width * height * 4`),
every engine operation — `apply_point_fn`, `change_brightness`,
`to_grayscale_avg`, `to_grayscale_avg_weighted`, `filter_smooth`,
`filter_median`, `filter_sobel`, `filter_highpass_sharpen`,
`filter_gaussian_blur` — leaves `pixels.len()`, `width` and `height`
unchanged, so the length invariant is preserved by every operation. -/
theorem C1_every_operation_preserves_dimensions (img : Image)
    (_hwf : img.bitmap_data.length = img.width * img.height * 4)
    (comp : ColorComponent) (v : ℚ) (func : ℚ → ℚ → ℚ) (br : ℚ) :
    ((apply_point_fn img comp v func).bitmap_data.length = img.bitmap_data.length ∧
      (apply_point_fn img comp v func).width = img.width ∧
      (apply_point_fn img comp v func).height = img.height) ∧
    ((change_brightness img br).bitmap_data.length = img.bitmap_data.length ∧
      (change_brightness img br).width = img.width ∧
      (change_brightness img br).height = img.height) ∧
    ((to_grayscale_avg img).bitmap_data.length = img.bitmap_data.length ∧
      (to_grayscale_avg img).width = img.width ∧
      (to_grayscale_avg img).height = img.height) ∧
    ((to_grayscale_avg_weighted img).bitmap_data.length = img.bitmap_data.length ∧
      (to_grayscale_avg_weighted img).width = img.width ∧
      (to_grayscale_avg_weighted img).height = img.height) ∧
    ((filter_smooth img).bitmap_data.length = img.bitmap_data.length ∧
      (filter_smooth img).width = img.width ∧
      (filter_smooth img).height = img.height) ∧
    ((filter_median img).bitmap_data.length = img.bitmap_data.length ∧
      (filter_median img).width = img.width ∧
      (filter_median img).height = img.height) ∧
    ((filter_sobel img).bitmap_data.length = img.bitmap_data.length ∧
      (filter_sobel img).width = img.width ∧
      (filter_sobel img).height = img.height) ∧
    ((filter_highpass_sharpen img).bitmap_data.length = img.bitmap_data.length ∧
      (filter_highpass_sharpen img).width = img.width ∧
      (filter_highpass_sharpen img).height = img.height) ∧
    ((filter_gaussian_blur img).bitmap_data.length = img.bitmap_data.length ∧
      (filter_gaussian_blur img).width = img.width ∧
      (filter_gaussian_blur img).height = img.height) := by
  refine ⟨?_, ?_, ?_, ?_, ?_, ?_, ?_, ?_, ?_⟩
  · unfold apply_point_fn
    split
    · exact ⟨rfl, rfl, rfl⟩
    · exact ⟨pointGo_length _ _ _ _ _ _, rfl, rfl⟩
  · exact ⟨brightGo_length _ _ _ _, rfl, rfl⟩
  · exact ⟨grayGo_length _ _ _ _, rfl, rfl⟩
  · exact ⟨grayGo_length _ _ _ _, rfl, rfl⟩
  · exact ⟨runPass_length _ _, rfl, rfl⟩
  · exact ⟨runPass_length _ _, rfl, rfl⟩
  · exact ⟨runPass_length _ _, rfl, rfl⟩
  · exact ⟨combineGo_length _ _ _ _, rfl, rfl⟩
  · exact ⟨runPass_length _ _, rfl, rfl⟩

theorem C1_witness :
    (filter_smooth ⟨[1, 2, 3, 4], 1, 1⟩).bitmap_data.length = 4 ∧
    (apply_point_fn ⟨[1, 2, 3, 4], 1, 1⟩ ColorComponent.Red 1
      ArithmeticOp.Add.app).bitmap_data.length = 4 := by
  have h := C1_every_operation_preserves_dimensions ⟨[1, 2, 3, 4], 1, 1⟩ (by decide)
    ColorComponent.Red 1 ArithmeticOp.Add.app 1
  exact ⟨h.2.2.2.2.1.1, h.1.1⟩

/-- C2: in every convolution filter a neighborhood sample is skipped exactly
when its linear index falls outside `[0, len)` (the `< 0` disjunct of the
shared guard is dead on `usize`), and — with no per-axis check — the
rightmost pixel of a non-last row takes its `dx = +1, dy = 0` sample
(`i = 5`) from the leftmost pixel of the next row. -/
theorem C2_skip_is_linear_bound_only :
    (∀ w len index i, sampleSkipped w len index i ↔ ¬ pixelIndex w index i < len) ∧
    (∀ w h r, 2 ≤ w → 2 ≤ h → r + 1 < h → w * h * 4 ≤ USIZE →
      pixelIndex w ((r * w + (w - 1)) * 4) 5 = (r + 1) * w * 4 ∧
      ¬ sampleSkipped w (w * h * 4) ((r * w + (w - 1)) * 4) 5) := by
  constructor
  · intro w len index i
    unfold sampleSkipped
    omega
  · intro w h r hw hh hr hU
    have hlt : (r + 1) * w * 4 < w * h * 4 := by
      have h1 : (r + 1) * w < h * w := Nat.mul_lt_mul_of_pos_right hr (by omega)
      have h2 : ((r + 1) * w) * 4 < (h * w) * 4 := Nat.mul_lt_mul_of_pos_right h1 (by omega)
      rw [Nat.mul_comm h w] at h2
      exact h2
    have hpi : pixelIndex w ((r * w + (w - 1)) * 4) 5 = (r + 1) * w * 4 := by
      apply pixelIndex_eq_of_no_underflow
      · have hexp : (r + 1) * w * 4 = r * w * 4 + w * 4 := by ring
        rw [hexp]
        have h53 : (5 : Nat) % 3 = 2 := by norm_num
        have h53' : (5 : Nat) / 3 = 1 := by norm_num
        rw [h53, h53']
        set m := r * w with hm
        omega
      · omega
    refine ⟨hpi, ?_⟩
    unfold sampleSkipped
    rw [hpi]
    omega

theorem C2_witness :
    pixelIndex 2 ((0 * 2 + (2 - 1)) * 4) 5 = (0 + 1) * 2 * 4 ∧
    ¬ sampleSkipped 2 (2 * 2 * 4) ((0 * 2 + (2 - 1)) * 4) 5 :=
  C2_skip_is_linear_bound_only.2 2 2 0 (by norm_num) (by norm_num) (by norm_num)
    (by norm_num [USIZE])

/-- C3: under the length invariant every filter's buffer accesses are in
bounds: every accepted neighborhood index (pixel aligned because the wrapped
offsets preserve alignment) leaves room for its three color bytes, and every
per-pixel access at `index + offset` with `offset < 4` stays below the
length, so no operation can panic. -/
theorem C3_accesses_in_bounds :
    (∀ w len index i, 4 ∣ len → 4 ∣ index → ¬ sampleSkipped w len index i →
      pixelIndex w index i + 2 < len) ∧
    (∀ len index c, 4 ∣ len → 4 ∣ index → index < len → c < 4 → index + c < len) := by
  constructor
  · intro w len index i h1 h2 h3
    exact accepted_pixelIndex_bound h1 h2 h3
  · intro len index c h1 h2 h3 h4
    omega

theorem C3_witness : pixelIndex 3 16 0 + 2 < 36 ∧ (16 : Nat) + 3 < 36 :=
  ⟨C3_accesses_in_bounds.1 3 36 16 0 (by norm_num) (by norm_num) (by decide),
   C3_accesses_in_bounds.2 36 16 3 (by norm_num) (by norm_num) (by norm_num) (by norm_num)⟩

/-- C4: for every buffer, every channel (alpha included) and every arithmetic
operation, `apply_point_fn` with operand `0.0` leaves the buffer unchanged;
in particular `Divide` by zero is a no-op (the short-circuit fires before
any division). -/
theorem C4_zero_operand_is_identity (img : Image) (comp : ColorComponent)
    (op : ArithmeticOp) : apply_point_fn img comp 0 op.app = img := by
  unfold apply_point_fn
  simp

/-- C10: the narrowing `f32`-to-`u8` casts saturate instead of wrapping:
`apply_point_fn` stores `clamp(trunc(op(b, v)), 0, 255)` for every byte and
nonzero operand (values at or above 255 become 255, nonpositive values 0,
and no result exceeds 255 — never a reduction modulo 256; NaN cannot arise
in the exact model since the zero-operand division is short-circuited), and
`filter_sobel` stores `min 255 (trunc (sqrt (gx^2 + gy^2)))`. -/
theorem C10_narrowing_casts_saturate :
    (∀ (img : Image) (comp : ColorComponent) (v : ℚ) (func : ℚ → ℚ → ℚ), v ≠ 0 →
      4 ∣ img.bitmap_data.length → ∀ j, j < img.bitmap_data.length →
      j % 4 = componentOffset comp →
      readD (apply_point_fn img comp v func).bitmap_data j
        = u8castQ (func (readD img.bitmap_data j) v)) ∧
    (∀ q : ℚ, (u8castQ q : ℤ) = min 255 (max 0 ⌊q⌋)) ∧
    (∀ q : ℚ, 255 ≤ q → u8castQ q = 255) ∧
    (∀ q : ℚ, q ≤ 0 → u8castQ q = 0) ∧
    (∀ q : ℚ, u8castQ q ≤ 255) ∧
    (∀ (img : Image), 4 ∣ img.bitmap_data.length → ∀ j, j < img.bitmap_data.length →
      j % 4 = 0 →
      readD (filter_sobel img).bitmap_data j
        = min 255 (Nat.sqrt ((sobelGrad img.width img.bitmap_data j 0).1 *
            (sobelGrad img.width img.bitmap_data j 0).1 +
            (sobelGrad img.width img.bitmap_data j 0).2 *
            (sobelGrad img.width img.bitmap_data j 0).2).toNat)) := by
  refine ⟨?_, u8castQ_eq_clamp, fun q h => u8castQ_of_ge h, fun q h => u8castQ_of_nonpos h,
    u8castQ_le_255, ?_⟩
  · intro img comp v func hv hlen4 j hj hjo
    have hoff : componentOffset comp < 4 := by
      cases comp <;> norm_num [componentOffset]
    unfold apply_point_fn
    rw [if_neg hv]
    show readD (pointGo (componentOffset comp) v func img.bitmap_data 0
      (img.bitmap_data.length + 1)) j = _
    rw [pointGo_readD (componentOffset comp) v func hoff (img.bitmap_data.length + 1)
      img.bitmap_data 0 j hlen4 ⟨0, rfl⟩ (by omega)]
    rw [if_pos ⟨by omega, hj, hjo⟩]
  · intro img hlen4 j hj hjo
    unfold filter_sobel
    show readD (runPass (sobelPixel img.width) img.bitmap_data) j = _
    rw [runPass_readD (sobelPixel img.width) img.bitmap_data hlen4 j,
      if_pos ⟨hj, by omega⟩]
    rw [hjo]
    simp only [Nat.sub_zero]
    simp [tripleSel, sobelPixel, sobelMagnitude]

theorem C10_witness :
    readD (apply_point_fn ⟨[10, 0, 0, 0], 1, 1⟩ ColorComponent.Red 1000
      ArithmeticOp.Add.app).bitmap_data 0 = 255 := by
  rw [C10_narrowing_casts_saturate.1 ⟨[10, 0, 0, 0], 1, 1⟩ ColorComponent.Red 1000
    ArithmeticOp.Add.app (by norm_num) (by decide) 0 (by decide) (by decide)]
  norm_num [readD, ArithmeticOp.app, u8castQ]

/-- C5: `to_grayscale_avg` writes `trunc((R + G + B) / 3)` — equal to the
natural-number quotient `(R + G + B) / 3` — to R, G and B of every pixel (so
the three output color bytes are equal) and leaves the alpha byte unchanged;
at `(30, 60, 90, 255)` the gray value is 60 (see the witness). -/
theorem C5_grayscale_avg_pointwise (img : Image) (hlen4 : 4 ∣ img.bitmap_data.length)
    (hbytes : ∀ i, i < img.bitmap_data.length → readD img.bitmap_data i < 256)
    (j : Nat) (hj : j < img.bitmap_data.length) (hj4 : j % 4 = 0) :
    readD (to_grayscale_avg img).bitmap_data j =
      (readD img.bitmap_data j + readD img.bitmap_data (j + 1) +
        readD img.bitmap_data (j + 2)) / 3 ∧
    readD (to_grayscale_avg img).bitmap_data (j + 1) =
      (readD img.bitmap_data j + readD img.bitmap_data (j + 1) +
        readD img.bitmap_data (j + 2)) / 3 ∧
    readD (to_grayscale_avg img).bitmap_data (j + 2) =
      (readD img.bitmap_data j + readD img.bitmap_data (j + 1) +
        readD img.bitmap_data (j + 2)) / 3 ∧
    readD (to_grayscale_avg img).bitmap_data (j + 3) = readD img.bitmap_data (j + 3) := by
  have hchar : ∀ k, readD (to_grayscale_avg img).bitmap_data k =
      if k < img.bitmap_data.length ∧ k % 4 ≠ 3 then
        grayAvgByte (readD img.bitmap_data (k - k % 4)) (readD img.bitmap_data (k - k % 4 + 1))
          (readD img.bitmap_data (k - k % 4 + 2))
      else readD img.bitmap_data k := by
    intro k
    unfold to_grayscale_avg
    show readD (grayGo grayAvgByte img.bitmap_data 0 (img.bitmap_data.length + 1)) k = _
    rw [grayGo_readD grayAvgByte (img.bitmap_data.length + 1) img.bitmap_data 0 k hlen4
      ⟨0, rfl⟩ (by omega)]
    simp
  have hgb : grayAvgByte (readD img.bitmap_data j) (readD img.bitmap_data (j + 1))
      (readD img.bitmap_data (j + 2)) = (readD img.bitmap_data j +
        readD img.bitmap_data (j + 1) + readD img.bitmap_data (j + 2)) / 3 :=
    grayAvgByte_eq_div _ _ _ (hbytes j hj) (hbytes (j + 1) (by omega))
      (hbytes (j + 2) (by omega))
  refine ⟨?_, ?_, ?_, ?_⟩
  · rw [hchar j, if_pos ⟨hj, by omega⟩]
    simp only [hj4, Nat.sub_zero]
    exact hgb
  · rw [hchar (j + 1), if_pos ⟨by omega, by omega⟩]
    simp only [show (j + 1) % 4 = 1 from by omega, Nat.add_sub_cancel]
    exact hgb
  · rw [hchar (j + 2), if_pos ⟨by omega, by omega⟩]
    simp only [show (j + 2) % 4 = 2 from by omega, Nat.add_sub_cancel]
    exact hgb
  · rw [hchar (j + 3), if_neg (by omega)]

theorem C5_witness :
    readD (to_grayscale_avg ⟨[30, 60, 90, 255], 1, 1⟩).bitmap_data 0 = 60 ∧
    readD (to_grayscale_avg ⟨[30, 60, 90, 255], 1, 1⟩).bitmap_data 1 = 60 ∧
    readD (to_grayscale_avg ⟨[30, 60, 90, 255], 1, 1⟩).bitmap_data 2 = 60 ∧
    readD (to_grayscale_avg ⟨[30, 60, 90, 255], 1, 1⟩).bitmap_data 3 = 255 := by
  have h := C5_grayscale_avg_pointwise ⟨[30, 60, 90, 255], 1, 1⟩ (by decide) (by decide) 0
    (by decide) (by decide)
  exact ⟨by rw [h.1]; rfl, by rw [h.2.1]; rfl, by rw [h.2.2.1]; rfl, by rw [h.2.2.2]; rfl⟩

/-- C6: `to_grayscale_avg_weighted` (BT.709 luma weights `0.2126`, `0.7152`,
`0.0722`, truncated to byte) maps every pure-white pixel
`(255, 255, 255, 255)` to itself (the three weight constants sum exactly
to 1). -/
theorem C6_luma_white_fixed (img : Image) (hlen4 : 4 ∣ img.bitmap_data.length)
    (j : Nat) (hj : j < img.bitmap_data.length) (hj4 : j % 4 = 0)
    (hr : readD img.bitmap_data j = 255) (hg : readD img.bitmap_data (j + 1) = 255)
    (hb : readD img.bitmap_data (j + 2) = 255) (ha : readD img.bitmap_data (j + 3) = 255) :
    readD (to_grayscale_avg_weighted img).bitmap_data j = 255 ∧
    readD (to_grayscale_avg_weighted img).bitmap_data (j + 1) = 255 ∧
    readD (to_grayscale_avg_weighted img).bitmap_data (j + 2) = 255 ∧
    readD (to_grayscale_avg_weighted img).bitmap_data (j + 3) = 255 := by
  have hchar : ∀ k, readD (to_grayscale_avg_weighted img).bitmap_data k =
      if k < img.bitmap_data.length ∧ k % 4 ≠ 3 then
        grayLumaByte (readD img.bitmap_data (k - k % 4)) (readD img.bitmap_data (k - k % 4 + 1))
          (readD img.bitmap_data (k - k % 4 + 2))
      else readD img.bitmap_data k := by
    intro k
    unfold to_grayscale_avg_weighted
    show readD (grayGo grayLumaByte img.bitmap_data 0 (img.bitmap_data.length + 1)) k = _
    rw [grayGo_readD grayLumaByte (img.bitmap_data.length + 1) img.bitmap_data 0 k hlen4
      ⟨0, rfl⟩ (by omega)]
    simp
  refine ⟨?_, ?_, ?_, ?_⟩
  · rw [hchar j, if_pos ⟨hj, by omega⟩]
    simp only [hj4, Nat.sub_zero]
    rw [hr, hg, hb]
    exact grayLumaByte_white
  · rw [hchar (j + 1), if_pos ⟨by omega, by omega⟩]
    simp only [show (j + 1) % 4 = 1 from by omega, Nat.add_sub_cancel]
    rw [hr, hg, hb]
    exact grayLumaByte_white
  · rw [hchar (j + 2), if_pos ⟨by omega, by omega⟩]
    simp only [show (j + 2) % 4 = 2 from by omega, Nat.add_sub_cancel]
    rw [hr, hg, hb]
    exact grayLumaByte_white
  · rw [hchar (j + 3), if_neg (by omega)]
    exact ha

theorem C6_witness :
    readD (to_grayscale_avg_weighted ⟨[255, 255, 255, 255], 1, 1⟩).bitmap_data 0 = 255 ∧
    readD (to_grayscale_avg_weighted ⟨[255, 255, 255, 255], 1, 1⟩).bitmap_data 1 = 255 ∧
    readD (to_grayscale_avg_weighted ⟨[255, 255, 255, 255], 1, 1⟩).bitmap_data 2 = 255 ∧
    readD (to_grayscale_avg_weighted ⟨[255, 255, 255, 255], 1, 1⟩).bitmap_data 3 = 255 :=
  C6_luma_white_fixed ⟨[255, 255, 255, 255], 1, 1⟩ (by decide) 0 (by decide) (by decide)
    (by decide) (by decide) (by decide) (by decide)

/-- Reading the four bytes of one output pixel of a convolution pass over a
uniform buffer whose per-pixel result at that pixel is known. -/
theorem runPass_uniform_readD (f : List Nat → Nat → Nat × Nat × Nat) (r g b a n j : Nat)
    (t : Nat × Nat × Nat) (hpix : f (uniformData r g b a n) j = t)
    (hj : j < 4 * n) (hj4 : j % 4 = 0) :
    readD (runPass f (uniformData r g b a n)) j = t.1 ∧
    readD (runPass f (uniformData r g b a n)) (j + 1) = t.2.1 ∧
    readD (runPass f (uniformData r g b a n)) (j + 2) = t.2.2 ∧
    readD (runPass f (uniformData r g b a n)) (j + 3) = a := by
  have hlen := uniformData_length r g b a n
  have hlen4 : 4 ∣ (uniformData r g b a n).length := by
    rw [hlen]
    exact ⟨n, rfl⟩
  refine ⟨?_, ?_, ?_, ?_⟩
  · rw [runPass_readD f _ hlen4 j, if_pos ⟨by omega, by omega⟩]
    simp only [hj4, Nat.sub_zero, hpix]
    simp [tripleSel]
  · rw [runPass_readD f _ hlen4 (j + 1), if_pos ⟨by omega, by omega⟩]
    simp only [show (j + 1) % 4 = 1 from by omega, Nat.add_sub_cancel, hpix]
    simp [tripleSel]
  · rw [runPass_readD f _ hlen4 (j + 2), if_pos ⟨by omega, by omega⟩]
    simp only [show (j + 2) % 4 = 2 from by omega, Nat.add_sub_cancel, hpix]
    simp [tripleSel]
  · rw [runPass_readD f _ hlen4 (j + 3), if_neg (by omega)]
    rw [uniformData_readD r g b a n (j + 3) (by omega)]
    simp only [show (j + 3) % 4 = 3 from by omega]
    rfl

/-- C7 (as stated) is false: on the uniform 1×1 buffer `[9, 9, 9, 255]` the
smooth filter keeps only 3 of the 9 samples in bounds and still divides by
9, turning color 9 into 3; Gaussian blur similarly keeps kernel weight 6 of
16 and turns color 8 into 3.  Neither filter is an identity on uniform
buffers. -/
theorem C7_counterexample :
    uniformData 9 9 9 255 1 = [9, 9, 9, 255] ∧
    (filter_smooth ⟨[9, 9, 9, 255], 1, 1⟩).bitmap_data = [3, 3, 3, 255] ∧
    filter_smooth ⟨[9, 9, 9, 255], 1, 1⟩ ≠ ⟨[9, 9, 9, 255], 1, 1⟩ ∧
    uniformData 8 8 8 255 1 = [8, 8, 8, 255] ∧
    (filter_gaussian_blur ⟨[8, 8, 8, 255], 1, 1⟩).bitmap_data = [3, 3, 3, 255] ∧
    filter_gaussian_blur ⟨[8, 8, 8, 255], 1, 1⟩ ≠ ⟨[8, 8, 8, 255], 1, 1⟩ := by
  refine ⟨by decide, by decide, by decide, by decide, by decide, by decide⟩

/-- C7 (amended): on a uniform-color buffer, `filter_smooth` and
`filter_gaussian_blur` leave unchanged every pixel whose nine neighborhood
sample indices are all in bounds (for such a pixel the smooth sum is nine
equal samples divided by nine and the Gaussian sum has full kernel weight
16); pixels with an out-of-bounds (skipped, zero-contributing) sample are in
general darkened, so the filters are not identities on whole buffers. -/
theorem C7_uniform_identity_at_full_neighborhood_pixels (r g b a w h j : Nat)
    (hj : j < 4 * (w * h)) (hj4 : j % 4 = 0)
    (hns : ∀ i, i < 9 → ¬ sampleSkipped w (4 * (w * h)) j i) :
    (readD (filter_smooth ⟨uniformData r g b a (w * h), w, h⟩).bitmap_data j = r ∧
     readD (filter_smooth ⟨uniformData r g b a (w * h), w, h⟩).bitmap_data (j + 1) = g ∧
     readD (filter_smooth ⟨uniformData r g b a (w * h), w, h⟩).bitmap_data (j + 2) = b ∧
     readD (filter_smooth ⟨uniformData r g b a (w * h), w, h⟩).bitmap_data (j + 3) = a) ∧
    (readD (filter_gaussian_blur ⟨uniformData r g b a (w * h), w, h⟩).bitmap_data j = r ∧
     readD (filter_gaussian_blur ⟨uniformData r g b a (w * h), w, h⟩).bitmap_data (j + 1) = g ∧
     readD (filter_gaussian_blur ⟨uniformData r g b a (w * h), w, h⟩).bitmap_data (j + 2) = b ∧
     readD (filter_gaussian_blur ⟨uniformData r g b a (w * h), w, h⟩).bitmap_data (j + 3) = a)
    := by
  have hsmu := smoothPixel_uniform r g b a (w * h) w j hj4 hns
  have hgau := gaussPixel_uniform r g b a (w * h) w j hj4 hns
  exact ⟨runPass_uniform_readD (smoothPixel w) r g b a (w * h) j (r, g, b) hsmu hj hj4,
    runPass_uniform_readD (gaussPixel w) r g b a (w * h) j (r, g, b) hgau hj hj4⟩

theorem C7_witness :
    readD (filter_smooth ⟨uniformData 5 6 7 8 9, 3, 3⟩).bitmap_data 16 = 5 ∧
    readD (filter_smooth ⟨uniformData 5 6 7 8 9, 3, 3⟩).bitmap_data 19 = 8 ∧
    readD (filter_gaussian_blur ⟨uniformData 5 6 7 8 9, 3, 3⟩).bitmap_data 16 = 5 := by
  have h := C7_uniform_identity_at_full_neighborhood_pixels 5 6 7 8 3 3 16 (by norm_num)
    (by norm_num) (by decide)
  exact ⟨h.1.1, h.1.2.2.2, h.2.1⟩

/-- C8 (as stated) is false: on the uniform 1×2 buffer of color 10, the top
pixel keeps only five of its nine samples in bounds, the gradient weights no
longer cancel (`gx = gy = 10`), and the Sobel output byte is
`trunc(sqrt(200)) = 14`, not 0. -/
theorem C8_counterexample :
    uniformData 10 10 10 255 2 = [10, 10, 10, 255, 10, 10, 10, 255] ∧
    readD (filter_sobel ⟨[10, 10, 10, 255, 10, 10, 10, 255], 1, 2⟩).bitmap_data 0 = 14 ∧
    (14 : Nat) ≠ 0 := by
  refine ⟨by decide, ?_, by norm_num⟩
  have hg : sobelGrad 1 [10, 10, 10, 255, 10, 10, 10, 255] 0 0 = (10, 10) := by decide
  unfold filter_sobel
  show readD (runPass (sobelPixel 1) [10, 10, 10, 255, 10, 10, 10, 255]) 0 = 14
  rw [runPass_readD (sobelPixel 1) _ (by decide) 0, if_pos (by refine ⟨by decide, by decide⟩)]
  show tripleSel (sobelPixel 1 [10, 10, 10, 255, 10, 10, 10, 255] 0) 0 = 14
  rw [show ∀ t : Nat × Nat × Nat, tripleSel t 0 = t.1 from fun t => rfl]
  unfold sobelPixel
  rw [hg]
  unfold sobelMagnitude
  norm_num
  rw [show Int.toNat 200 = 200 from rfl, show Nat.sqrt 200 = 14 from by norm_num]
  decide

/-- C8 (amended): on a uniform-color buffer `filter_sobel` writes 0 to R, G
and B of every pixel whose nine neighborhood samples are all in bounds (the
gradient weights cancel over nine equal samples), and for every buffer it
leaves every alpha byte unchanged; boundary pixels with skipped samples can
get nonzero magnitudes, as the counterexample shows. -/
theorem C8_sobel_uniform_zero_at_full_neighborhood_pixels (r g b a w h j : Nat)
    (hj : j < 4 * (w * h)) (hj4 : j % 4 = 0)
    (hns : ∀ i, i < 9 → ¬ sampleSkipped w (4 * (w * h)) j i) :
    (readD (filter_sobel ⟨uniformData r g b a (w * h), w, h⟩).bitmap_data j = 0 ∧
     readD (filter_sobel ⟨uniformData r g b a (w * h), w, h⟩).bitmap_data (j + 1) = 0 ∧
     readD (filter_sobel ⟨uniformData r g b a (w * h), w, h⟩).bitmap_data (j + 2) = 0 ∧
     readD (filter_sobel ⟨uniformData r g b a (w * h), w, h⟩).bitmap_data (j + 3) = a) ∧
    (∀ (img : Image) (k : Nat), 4 ∣ img.bitmap_data.length → k < img.bitmap_data.length →
      k % 4 = 3 → readD (filter_sobel img).bitmap_data k = readD img.bitmap_data k) := by
  constructor
  · have hsb := sobelPixel_uniform r g b a (w * h) w j hj4 hns
    exact runPass_uniform_readD (sobelPixel w) r g b a (w * h) j (0, 0, 0) hsb hj hj4
  · intro img k hlen4 hk hk4
    unfold filter_sobel
    show readD (runPass (sobelPixel img.width) img.bitmap_data) k = _
    rw [runPass_readD _ _ hlen4 k, if_neg (by omega)]

theorem C8_witness :
    readD (filter_sobel ⟨uniformData 5 6 7 8 9, 3, 3⟩).bitmap_data 16 = 0 ∧
    readD (filter_sobel ⟨uniformData 5 6 7 8 9, 3, 3⟩).bitmap_data 19 = 8 := by
  have h := C8_sobel_uniform_zero_at_full_neighborhood_pixels 5 6 7 8 3 3 16 (by norm_num)
    (by norm_num) (by decide)
  exact ⟨h.1.1, h.1.2.2.2⟩

/-- C9 (as stated) is false: with operand 300 on the buffer `[100, 0, 0, 0]`,
Add saturates the Red byte to 255 and Subtract then drives it to 0, a
round-trip error of 100, far beyond the claimed ±1. -/
theorem C9_counterexample :
    readD (apply_point_fn (apply_point_fn ⟨[100, 0, 0, 0], 1, 1⟩ ColorComponent.Red 300
        ArithmeticOp.Add.app) ColorComponent.Red 300
        ArithmeticOp.Subtract.app).bitmap_data 0 = 0 ∧
    readD (⟨[100, 0, 0, 0], 1, 1⟩ : Image).bitmap_data 0 = 100 ∧
    ¬ ((0 : ℤ) - (100 : ℤ)).natAbs ≤ 1 := by
  have h300 : (300 : ℚ) ≠ 0 := by norm_num
  have hread1 : readD (apply_point_fn ⟨[100, 0, 0, 0], 1, 1⟩ ColorComponent.Red 300
      ArithmeticOp.Add.app).bitmap_data 0 = u8castQ ((100 : ℚ) + 300) := by
    unfold apply_point_fn
    rw [if_neg h300]
    show readD (pointGo 0 300 ArithmeticOp.Add.app [100, 0, 0, 0] 0 5) 0 = _
    rw [pointGo_readD 0 300 ArithmeticOp.Add.app (by norm_num) 5 [100, 0, 0, 0] 0 0
      (by norm_num) ⟨0, rfl⟩ (by norm_num), if_pos ⟨by omega, by norm_num, by norm_num⟩]
    norm_num [readD, ArithmeticOp.app]
  have h255 : u8castQ ((100 : ℚ) + 300) = 255 := u8castQ_of_ge (by norm_num)
  refine ⟨?_, rfl, by norm_num⟩
  set imgA := apply_point_fn ⟨[100, 0, 0, 0], 1, 1⟩ ColorComponent.Red 300
    ArithmeticOp.Add.app with hA
  have hlenA : imgA.bitmap_data.length = 4 := by
    rw [hA]
    unfold apply_point_fn
    rw [if_neg h300]
    exact pointGo_length _ _ _ _ _ _
  unfold apply_point_fn
  rw [if_neg h300]
  show readD (pointGo 0 300 ArithmeticOp.Subtract.app imgA.bitmap_data 0
    (imgA.bitmap_data.length + 1)) 0 = 0
  rw [pointGo_readD 0 300 ArithmeticOp.Subtract.app (by norm_num)
    (imgA.bitmap_data.length + 1) imgA.bitmap_data 0 0 (by rw [hlenA]) ⟨0, rfl⟩ (by omega),
    if_pos ⟨by omega, by rw [hlenA]; omega, by norm_num⟩]
  rw [hread1, h255]
  have : ArithmeticOp.Subtract.app ((255 : ℕ) : ℚ) 300 = (255 : ℚ) - 300 := rfl
  rw [this]
  exact u8castQ_of_nonpos (by norm_num)

/-- C9 (amended): the ±1 round trip holds whenever no saturation occurs: if
every Red byte `b` of the buffer satisfies `0 ≤ b + v < 256`, then applying
Add with `v` and then Subtract with the same `v` on channel Red returns
every Red byte to within ±1 of its original value (the error is due to
truncation).  With saturation the error can reach 100 or more, as the
counterexample shows. -/
theorem C9_roundtrip_within_one_without_saturation (img : Image) (v : ℚ)
    (hlen4 : 4 ∣ img.bitmap_data.length)
    (hbytes : ∀ k, k < img.bitmap_data.length → k % 4 = 0 →
      readD img.bitmap_data k < 256 ∧ 0 ≤ (readD img.bitmap_data k : ℚ) + v ∧
        (readD img.bitmap_data k : ℚ) + v < 256)
    (j : Nat) (hj : j < img.bitmap_data.length) (hj4 : j % 4 = 0) :
    ((readD (apply_point_fn (apply_point_fn img ColorComponent.Red v ArithmeticOp.Add.app)
        ColorComponent.Red v ArithmeticOp.Subtract.app).bitmap_data j : ℤ) -
      (readD img.bitmap_data j : ℤ)).natAbs ≤ 1 := by
  by_cases hv : v = 0
  · subst hv
    unfold apply_point_fn
    simp
  · obtain ⟨hb256, hq0, hq1⟩ := hbytes j hj hj4
    have hread1 : readD (apply_point_fn img ColorComponent.Red v
        ArithmeticOp.Add.app).bitmap_data j
        = u8castQ ((readD img.bitmap_data j : ℚ) + v) := by
      unfold apply_point_fn
      rw [if_neg hv]
      show readD (pointGo 0 v ArithmeticOp.Add.app img.bitmap_data 0
        (img.bitmap_data.length + 1)) j = _
      rw [pointGo_readD 0 v ArithmeticOp.Add.app (by norm_num)
        (img.bitmap_data.length + 1) img.bitmap_data 0 j hlen4 ⟨0, rfl⟩ (by omega),
        if_pos ⟨by omega, hj, hj4⟩]
      rfl
    have hlen1 : (apply_point_fn img ColorComponent.Red v
        ArithmeticOp.Add.app).bitmap_data.length = img.bitmap_data.length := by
      unfold apply_point_fn
      rw [if_neg hv]
      exact pointGo_length _ _ _ _ _ _
    set imgA := apply_point_fn img ColorComponent.Red v ArithmeticOp.Add.app with hA
    have hread2 : readD (apply_point_fn imgA ColorComponent.Red v
        ArithmeticOp.Subtract.app).bitmap_data j
        = u8castQ ((u8castQ ((readD img.bitmap_data j : ℚ) + v) : ℚ) - v) := by
      unfold apply_point_fn
      rw [if_neg hv]
      show readD (pointGo 0 v ArithmeticOp.Subtract.app imgA.bitmap_data 0
        (imgA.bitmap_data.length + 1)) j = _
      rw [pointGo_readD 0 v ArithmeticOp.Subtract.app (by norm_num)
        (imgA.bitmap_data.length + 1) imgA.bitmap_data 0 j (by rw [hlen1]; exact hlen4)
        ⟨0, rfl⟩ (by omega), if_pos ⟨by omega, by rw [hlen1]; exact hj, hj4⟩, hread1]
      rfl
    rw [hread2]
    exact roundtrip_byte (readD img.bitmap_data j) v hb256 hq0 hq1

theorem C9_witness :
    ((readD (apply_point_fn (apply_point_fn ⟨[10, 0, 0, 0], 1, 1⟩ ColorComponent.Red (1 / 2)
        ArithmeticOp.Add.app) ColorComponent.Red (1 / 2)
        ArithmeticOp.Subtract.app).bitmap_data 0 : ℤ) - (10 : ℤ)).natAbs ≤ 1 := by
  have h := C9_roundtrip_within_one_without_saturation ⟨[10, 0, 0, 0], 1, 1⟩ (1 / 2)
    (by decide) ?_ 0 (by decide) (by decide)
  · exact h
  · intro k hk hk4
    have hk0 : k = 0 := by
      simp at hk
      omega
    subst hk0
    refine ⟨by decide, by norm_num [readD], by norm_num [readD]⟩

end Imgmod
